import Mathlib

/-!
Verification of the document compiler in `src/compile.rs` of the
rust-handbook repository.

Lines of the input text are modelled as lists of characters
(`Line := List Char`), the direct counterpart of Rust `&str` slices at the
granularity the compiler works on.  The compiler itself is embedded as pure
functions: `compile` maps the list of input lines to the `Doc` the Rust
`compile` builds after the filesystem read, `Doc.write_to_file` produces the
byte stream the Rust writer emits, and `compile_file` models the filesystem
boundary (open result, read result) explicitly, including the `unwrap` on
`read_to_string`.
-/

set_option maxHeartbeats 1000000

namespace RustHandbook

abbrev Line := List Char

/-- Rust `char::is_whitespace`: the Unicode `White_Space` code points. -/
def rustIsWhitespace (c : Char) : Bool :=
  let n := c.toNat
  (0x9 ≤ n && n ≤ 0xD) || n == 0x20 || n == 0x85 || n == 0xA0 || n == 0x1680 ||
    (0x2000 ≤ n && n ≤ 0x200A) || n == 0x2028 || n == 0x2029 || n == 0x202F ||
    n == 0x205F || n == 0x3000

/-- Rust `str::trim_start`. -/
def trimStart (l : Line) : Line := l.dropWhile rustIsWhitespace

/-- Rust `str::trim_end`. -/
def trimEnd (l : Line) : Line := (l.reverse.dropWhile rustIsWhitespace).reverse

/-- Rust `str::trim`. -/
def trim (l : Line) : Line := trimEnd (trimStart l)

/-- Rust `str::starts_with(pat)` for a literal pattern. -/
def starts_with (l pat : Line) : Bool := pat.isPrefixOf l

/-- Rust `s.strip_prefix(pat).unwrap_or(s)`. -/
def stripPrefixOr (l pat : Line) : Line :=
  if pat.isPrefixOf l then l.drop pat.length else l

/-- The doc-comment marker `"///"`. -/
def docMarker : Line := "///".toList

/-- The tutorial-comment marker `"//t"`. -/
def commentMarker : Line := "//t".toList

/-- `line.starts_with("///")` — classification test of `compile`. -/
def is_doc_line (l : Line) : Bool := starts_with l docMarker

/-- `line.starts_with("//t")` — classification test of `compile`. -/
def is_comment_line (l : Line) : Bool := starts_with l commentMarker

/-- The lines `parse_code` consumes: those on which its loop does not break,
i.e. lines starting with neither marker. -/
def is_code_line (l : Line) : Bool := !(is_comment_line l) && !(is_doc_line l)

/-- `enum Section` of `compile.rs`. -/
inductive Section where
  | Comment (lines : List Line)
  | DocComment (lines : List Line)
  | Code (lines : List Line)
deriving DecidableEq

/-- The `match` extracting the line buffer of any variant
(`Doc::write_to_file`, lines 14–18). -/
def Section.lines : Section → List Line
  | .Comment ls => ls
  | .DocComment ls => ls
  | .Code ls => ls

/-- `struct Doc`. -/
structure Doc where
  sections : List Section
deriving DecidableEq

/-- `parse_doc_comment`: consume the run of `///` lines, trimming each. -/
def parse_doc_comment (lines : List Line) : Except String (Section × List Line) :=
  if ((lines.takeWhile is_doc_line).map trim).isEmpty then .error "empty doc comment"
  else .ok (.DocComment ((lines.takeWhile is_doc_line).map trim),
            lines.dropWhile is_doc_line)

/-- The per-line stripping of `parse_comment`:
`line.strip_prefix("//t").unwrap_or(line)`, then
`.strip_prefix(" ").unwrap_or(..).trim_end()`. -/
def strip_comment (l : Line) : Line :=
  trimEnd (stripPrefixOr (stripPrefixOr l commentMarker) " ".toList)

/-- `parse_comment`: consume the run of `//t` lines, stripping each. -/
def parse_comment (lines : List Line) : Except String (Section × List Line) :=
  if ((lines.takeWhile is_comment_line).map strip_comment).isEmpty then
    .error "empty comment"
  else .ok (.Comment ((lines.takeWhile is_comment_line).map strip_comment),
            lines.dropWhile is_comment_line)

/-- `parse_code`: consume lines until one starts with `//t` or `///`
or the input ends; lines are stored as-is. -/
def parse_code (lines : List Line) : Except String (Section × List Line) :=
  if (lines.takeWhile is_code_line).isEmpty then .error "empty code"
  else .ok (.Code (lines.takeWhile is_code_line), lines.dropWhile is_code_line)

/-- The dispatch on the peeked line in `compile` (lines 56–62). -/
def parse_any (line : Line) (lines : List Line) : Except String (Section × List Line) :=
  if is_doc_line line then parse_doc_comment lines
  else if is_comment_line line then parse_comment lines
  else parse_code lines

/-- When the dispatched parser succeeds on a non-empty input it has consumed
at least the peeked line: the remainder is strictly shorter. -/
theorem parse_any_ok_length {line : Line} {tl : List Line} {s : Section}
    {rest : List Line} (h : parse_any line (line :: tl) = .ok (s, rest)) :
    rest.length < tl.length + 1 := by
  have hlen : ∀ (p : Line → Bool), p line = true →
      ((line :: tl).dropWhile p).length < tl.length + 1 := by
    intro p hp
    rw [List.dropWhile_cons_of_pos hp]
    exact Nat.lt_succ_of_le (List.dropWhile_suffix p).length_le
  unfold parse_any at h
  split at h
  · unfold parse_doc_comment at h
    split at h
    · exact absurd h (by simp)
    · obtain ⟨-, hrest⟩ := Prod.mk.injEq .. ▸ Except.ok.inj h
      rename_i hd _
      exact hrest ▸ hlen is_doc_line hd
  · split at h
    · unfold parse_comment at h
      split at h
      · exact absurd h (by simp)
      · obtain ⟨-, hrest⟩ := Prod.mk.injEq .. ▸ Except.ok.inj h
        rename_i hc _
        exact hrest ▸ hlen is_comment_line hc
    · unfold parse_code at h
      split at h
      · exact absurd h (by simp)
      · obtain ⟨-, hrest⟩ := Prod.mk.injEq .. ▸ Except.ok.inj h
        rename_i hd hc _
        exact hrest ▸ hlen is_code_line (by simp [is_code_line, hd, hc])

/-- The `loop` of `compile` (lines 49–65): peek the next line, dispatch to the
matching parser, collect the resulting `Section`, repeat until no lines remain. -/
def build_sections (lines : List Line) : Except String (List Section) :=
  match lines with
  | [] => .ok []
  | line :: tl =>
    match hp : parse_any line (line :: tl) with
    | .error e => .error e
    | .ok (s, rest) =>
      have : rest.length < tl.length + 1 := parse_any_ok_length hp
      match build_sections rest with
      | .error e => .error e
      | .ok ss => .ok (s :: ss)
termination_by lines.length

/-- The started-phase of the `while` loop of `format_code` (lines 148–162):
`prev` is `prev_empty`.  A line that is whitespace-only while the previous kept
line was too is removed; otherwise it is kept and `prev_empty` updated. -/
def collapse_empties (prev : Bool) (lines : List Line) : List Line :=
  match lines with
  | [] => []
  | l :: ls =>
    if (trim l).isEmpty && prev then collapse_empties prev ls
    else l :: collapse_empties ((trim l).isEmpty) ls

/-- The fence-open line `"```rust"`. -/
def fenceOpen : Line := "```rust".toList

/-- The fence-close line `"```"`. -/
def fenceClose : Line := "```".toList

/-- `format_code` (lines 142–174): drop leading whitespace-only lines
(`!started` phase), collapse runs of whitespace-only lines (`started` phase),
pop the last line when it `is_empty()` (the empty string), then fence a
non-empty result. -/
def format_code (lines : List Line) : List Line :=
  let collapsed := collapse_empties false (lines.dropWhile (fun l => (trim l).isEmpty))
  let popped := if collapsed.getLast? = some [] then collapsed.dropLast else collapsed
  if popped.isEmpty then popped
  else fenceOpen :: (popped ++ [fenceClose])

/-- The `format code` pass of `compile` (lines 67–74): `format_code` on `Code`
sections, other variants untouched. -/
def format_section : Section → Section
  | .Code ls => .Code (format_code ls)
  | s => s

/-- The pure part of `compile` (everything after `read_to_string`): build the
sections from the input lines, then run the formatting pass. -/
def compile (lines : List Line) : Except String Doc :=
  match build_sections lines with
  | .error e => .error e
  | .ok ss => .ok ⟨ss.map format_section⟩

/-- `Doc::write_to_file`, body of the `for` loop (lines 13–28): every line of
the section followed by `"\n"`, then one separator `"\n"` if the section's line
list is non-empty.  The output stream is modelled as the accumulated character
list. -/
def write_section (acc : List Char) (s : Section) : List Char :=
  (if s.lines.isEmpty then id else (· ++ ['\n']))
    (s.lines.foldl (fun acc l => acc ++ l ++ ['\n']) acc)

/-- `Doc::write_to_file` (lines 11–31): the characters written to the output
file, sections processed in `Doc` order. -/
def Doc.write_to_file (d : Doc) : List Char :=
  d.sections.foldl write_section []

/-- Result of a filesystem operation at the boundary of `compile`. -/
inductive FsResult (α : Type) where
  | ok (a : α)
  | err (e : String)
deriving DecidableEq

/-- How a run of the Rust `compile` terminates. -/
inductive CompileOutcome where
  | ok (d : Doc)
  | err (e : String)
  | panicked (e : String)
deriving DecidableEq

/-- `compile` including its filesystem boundary (lines 41–44):
`fs::File::open(fp).map_err(|e| e.to_string())?` returns an open failure as an
`Err` value, but `f.read_to_string(&mut s).unwrap()` panics on a read failure.
`openRes` and `readRes` are the outcomes the filesystem hands back for the two
calls; a successful read yields the input's lines. -/
def compile_file (openRes : FsResult Unit) (readRes : FsResult (List Line)) :
    CompileOutcome :=
  match openRes with
  | .err e => .err e
  | .ok _ =>
    match readRes with
    | .err e => .panicked e
    | .ok lines =>
      match compile lines with
      | .error e => .err e
      | .ok d => .ok d

/-- Rust `str::lines` on a character sequence: pieces end at `'\n'`; a piece
terminated by `'\n'` has one trailing `'\r'` removed; a final piece not
terminated by `'\n'` is emitted only if non-empty, with no `'\r'` removal.
`cur` holds the current piece's characters in reverse. -/
def rust_lines_go (cur : List Char) : List Char → List (List Char)
  | [] => if cur.isEmpty then [] else [cur.reverse]
  | c :: cs =>
    if c = '\n' then
      (match cur with
       | '\r' :: cur' => cur'.reverse
       | _ => cur.reverse) :: rust_lines_go [] cs
    else rust_lines_go (c :: cur) cs

/-- Rust `str::lines`, as used by `compile` on the text read from the file. -/
def rust_lines (s : List Char) : List (List Char) := rust_lines_go [] s

/-! ### Analysis of the section builder

`raw_runs` recovers the runs of original (pre-strip) input lines that the
builder consumes for the successive sections; `run_to_section` rebuilds the
section a run produces.  The lemmas below connect them to `build_sections`. -/

/-- The three classification tags, in the priority order of `compile`. -/
inductive Tag where
  | DocCommentTag
  | CommentTag
  | CodeTag
deriving DecidableEq

/-- The classification of one line (lines 56–62 of `compile`). -/
def classify (l : Line) : Tag :=
  if is_doc_line l then .DocCommentTag
  else if is_comment_line l then .CommentTag
  else .CodeTag

/-- The variant of a section. -/
def Section.tag : Section → Tag
  | .Comment _ => .CommentTag
  | .DocComment _ => .DocCommentTag
  | .Code _ => .CodeTag

/-- The predicate the run started at `line` keeps consuming with. -/
def run_pred (line : Line) : Line → Bool :=
  if is_doc_line line then is_doc_line
  else if is_comment_line line then is_comment_line
  else is_code_line

theorem run_pred_self (line : Line) : run_pred line line = true := by
  unfold run_pred
  split
  · assumption
  · split
    · assumption
    · rename_i hd hc
      simp [is_code_line, hd, hc]

/-- The runs of original input lines consumed for the successive sections. -/
def raw_runs (lines : List Line) : List (List Line) :=
  match lines with
  | [] => []
  | line :: tl =>
    ((line :: tl).takeWhile (run_pred line)) ::
      raw_runs ((line :: tl).dropWhile (run_pred line))
termination_by lines.length
decreasing_by
  rw [List.dropWhile_cons_of_pos (run_pred_self line)]
  exact Nat.lt_succ_of_le (List.dropWhile_suffix (run_pred line)).length_le

/-- The section built from one raw run, per-variant stripping included. -/
def run_to_section (run : List Line) : Section :=
  match run with
  | [] => .Code []
  | l :: _ =>
    if is_doc_line l then .DocComment (run.map trim)
    else if is_comment_line l then .Comment (run.map strip_comment)
    else .Code run

/-- On a non-empty input the dispatched parser succeeds, producing exactly the
section of the first raw run and leaving the lines after that run. -/
theorem parse_any_eq (line : Line) (tl : List Line) :
    parse_any line (line :: tl) =
      .ok (run_to_section ((line :: tl).takeWhile (run_pred line)),
           (line :: tl).dropWhile (run_pred line)) := by
  rw [List.takeWhile_cons_of_pos (run_pred_self line)]
  by_cases hd : is_doc_line line
  · have hp : run_pred line = is_doc_line := by simp [run_pred, hd]
    rw [hp]
    simp [parse_any, parse_doc_comment, hd, run_to_section,
      List.takeWhile_cons_of_pos (p := is_doc_line) hd]
  · by_cases hc : is_comment_line line
    · have hp : run_pred line = is_comment_line := by simp [run_pred, hd, hc]
      rw [hp]
      simp [parse_any, parse_comment, hd, hc, run_to_section,
        List.takeWhile_cons_of_pos (p := is_comment_line) hc]
    · have hcode : is_code_line line = true := by simp [is_code_line, hd, hc]
      have hp : run_pred line = is_code_line := by simp [run_pred, hd, hc]
      rw [hp]
      simp [parse_any, parse_code, hd, hc, run_to_section,
        List.takeWhile_cons_of_pos (p := is_code_line) hcode]

/-- `build_sections` never fails: it returns exactly the sections of the raw
runs. -/
theorem build_sections_eq (lines : List Line) :
    build_sections lines = .ok ((raw_runs lines).map run_to_section) := by
  suffices h : ∀ (n : Nat) (lines : List Line), lines.length = n →
      build_sections lines = .ok ((raw_runs lines).map run_to_section) from
    h _ lines rfl
  intro n
  induction n using Nat.strong_induction_on with
  | _ n ih =>
    intro lines hn
    match lines, hn with
    | [], _ =>
      unfold build_sections raw_runs
      rfl
    | line :: tl, hn =>
      have hrest : ((line :: tl).dropWhile (run_pred line)).length < n := by
        rw [List.dropWhile_cons_of_pos (run_pred_self line)]
        have := (List.dropWhile_suffix (p := run_pred line) (l := tl)).length_le
        simp at hn
        omega
      unfold build_sections raw_runs
      split
      · rename_i e heq
        rw [parse_any_eq] at heq
        exact absurd heq (by simp)
      · rename_i s rest heq
        rw [parse_any_eq] at heq
        obtain ⟨hs, hr⟩ := Prod.mk.injEq .. ▸ Except.ok.inj heq
        subst hs
        subst hr
        rw [ih _ hrest _ rfl]
        simp

/-- `compile` always succeeds on the pure side, with the formatted sections of
the raw runs. -/
theorem compile_eq (lines : List Line) :
    compile lines = .ok ⟨((raw_runs lines).map run_to_section).map format_section⟩ := by
  unfold compile
  rw [build_sections_eq]

/-- Concatenating the raw runs in order reconstructs the input line-for-line. -/
theorem raw_runs_join (lines : List Line) : (raw_runs lines).flatten = lines := by
  suffices h : ∀ (n : Nat) (lines : List Line), lines.length = n →
      (raw_runs lines).flatten = lines from h _ lines rfl
  intro n
  induction n using Nat.strong_induction_on with
  | _ n ih =>
    intro lines hn
    match lines, hn with
    | [], _ =>
      unfold raw_runs
      rfl
    | line :: tl, hn =>
      have hrest : ((line :: tl).dropWhile (run_pred line)).length < n := by
        rw [List.dropWhile_cons_of_pos (run_pred_self line)]
        have := (List.dropWhile_suffix (p := run_pred line) (l := tl)).length_le
        simp at hn
        omega
      unfold raw_runs
      rw [List.flatten_cons, ih _ hrest _ rfl, List.takeWhile_append_dropWhile]

/-- Every raw run is non-empty: the run always contains at least the peeked
line. -/
theorem raw_runs_ne_nil (lines : List Line) : ∀ r ∈ raw_runs lines, r ≠ [] := by
  suffices h : ∀ (n : Nat) (lines : List Line), lines.length = n →
      ∀ r ∈ raw_runs lines, r ≠ [] from h _ lines rfl
  intro n
  induction n using Nat.strong_induction_on with
  | _ n ih =>
    intro lines hn
    match lines, hn with
    | [], _ =>
      unfold raw_runs
      simp
    | line :: tl, hn =>
      have hrest : ((line :: tl).dropWhile (run_pred line)).length < n := by
        rw [List.dropWhile_cons_of_pos (run_pred_self line)]
        have := (List.dropWhile_suffix (p := run_pred line) (l := tl)).length_le
        simp at hn
        omega
      unfold raw_runs
      intro r hr
      rcases List.mem_cons.mp hr with hr | hr
      · rw [hr, List.takeWhile_cons_of_pos (run_pred_self line)]
        simp
      · exact ih _ hrest _ rfl r hr

/-- A line starting with `"//t"` does not start with `"///"`: the markers
differ at their third character. -/
theorem comment_not_doc (l : Line) (h : is_comment_line l = true) :
    is_doc_line l = false := by
  have hcm : commentMarker = ['/', '/', 't'] := rfl
  have hdm : docMarker = ['/', '/', '/'] := rfl
  match l with
  | [] => rfl
  | [a] => simp [is_doc_line, starts_with, hdm, List.isPrefixOf]
  | [a, b] => simp [is_doc_line, starts_with, hdm, List.isPrefixOf]
  | a :: b :: c :: t =>
    simp only [is_comment_line, starts_with, hcm, List.isPrefixOf,
      Bool.and_eq_true, beq_iff_eq] at h
    obtain ⟨h1, h2, h3, -⟩ := h
    subst h1
    subst h2
    subst h3
    rfl

/-- The run predicate keeps exactly the lines classified like the peeked one. -/
theorem run_pred_iff (line x : Line) :
    run_pred line x = true ↔ classify x = classify line := by
  unfold run_pred classify
  by_cases hd : is_doc_line line
  · simp only [hd, if_true]
    by_cases hx : is_doc_line x
    · simp [hx]
    · simp [hx]
      split
      · simp
      · simp
  · by_cases hc : is_comment_line line
    · simp only [hd, hc, if_false, if_true, Bool.false_eq_true]
      by_cases hx : is_comment_line x
      · simp [hx, comment_not_doc x hx]
      · simp [hx]
        split
        · simp
        · simp
    · simp only [hd, hc, if_false, Bool.false_eq_true]
      by_cases hxd : is_doc_line x
      · simp [is_code_line, hxd]
      · by_cases hxc : is_comment_line x
        · simp [is_code_line, hxd, hxc]
        · simp [is_code_line, hxd, hxc]

/-- The tag a raw run's section will carry: the classification of its first
line. -/
def run_tag (r : List Line) : Tag := classify (r.headD [])

theorem run_to_section_tag (r : List Line) :
    (run_to_section r).tag = run_tag r := by
  match r with
  | [] => rfl
  | l :: t =>
    unfold run_to_section run_tag classify
    by_cases hd : is_doc_line l
    · simp [hd, Section.tag]
    · by_cases hc : is_comment_line l
      · simp [hd, hc, Section.tag]
      · simp [hd, hc, Section.tag]

theorem format_section_tag (s : Section) : (format_section s).tag = s.tag := by
  cases s <;> rfl

theorem head?_dropWhile_false (p : Line → Bool) (l : List Line) (x : Line)
    (h : (l.dropWhile p).head? = some x) : p x = false := by
  induction l with
  | nil => simp at h
  | cons a as ih =>
    by_cases hp : p a
    · rw [List.dropWhile_cons_of_pos hp] at h
      exact ih h
    · rw [List.dropWhile_cons_of_neg hp] at h
      obtain rfl := Option.some.inj h
      exact Bool.of_not_eq_true hp

/-- Adjacent raw runs start with differently-classified lines, and the first
run starts with a line classified like the input's first line. -/
theorem raw_runs_chain (lines : List Line) :
    List.Chain' (fun r1 r2 => run_tag r1 ≠ run_tag r2) (raw_runs lines) ∧
      ∀ r, (raw_runs lines).head? = some r → run_tag r = classify (lines.headD []) := by
  suffices h : ∀ (n : Nat) (lines : List Line), lines.length = n →
      List.Chain' (fun r1 r2 => run_tag r1 ≠ run_tag r2) (raw_runs lines) ∧
      ∀ r, (raw_runs lines).head? = some r → run_tag r = classify (lines.headD []) from
    h _ lines rfl
  intro n
  induction n using Nat.strong_induction_on with
  | _ n ih =>
    intro lines hn
    match lines, hn with
    | [], _ =>
      unfold raw_runs
      simp
    | line :: tl, hn =>
      have hrest : ((line :: tl).dropWhile (run_pred line)).length < n := by
        rw [List.dropWhile_cons_of_pos (run_pred_self line)]
        have := (List.dropWhile_suffix (p := run_pred line) (l := tl)).length_le
        simp at hn
        omega
      obtain ⟨ihchain, ihhead⟩ := ih _ hrest _ rfl
      have hruntag : run_tag ((line :: tl).takeWhile (run_pred line)) = classify line := by
        rw [List.takeWhile_cons_of_pos (run_pred_self line)]
        rfl
      unfold raw_runs
      constructor
      · rw [List.chain'_cons']
        refine ⟨?_, ihchain⟩
        intro r2 hr2
        set rest := (line :: tl).dropWhile (run_pred line) with hrestdef
        have hne : rest ≠ [] := by
          intro hcontra
          rw [hcontra] at hr2
          unfold raw_runs at hr2
          simp at hr2
        obtain ⟨h2, t2, hrest2⟩ := List.exists_cons_of_ne_nil hne
        have hfail : run_pred line h2 = false := by
          refine head?_dropWhile_false (run_pred line) (line :: tl) h2 ?_
          rw [← hrestdef, hrest2]
          rfl
        have hcl : classify h2 ≠ classify line := by
          intro hcontra
          rw [← run_pred_iff line h2] at hcontra
          rw [hcontra] at hfail
          exact Bool.noConfusion hfail
        have := ihhead r2 hr2
        rw [hrest2] at this
        rw [hruntag, this]
        simpa using hcl.symm
      · intro r hr
        obtain rfl : r = (line :: tl).takeWhile (run_pred line) :=
          (Option.some.inj hr).symm
        simpa using hruntag

/-- In the started phase with `prev_empty = true`, the first kept line is not
whitespace-only. -/
theorem collapse_empties_head (ls : List Line) (x : Line)
    (h : (collapse_empties true ls).head? = some x) : (trim x).isEmpty = false := by
  induction ls with
  | nil => simp [collapse_empties] at h
  | cons l t ih =>
    unfold collapse_empties at h
    by_cases he : (trim l).isEmpty
    · rw [if_pos (by simp [he])] at h
      exact ih h
    · rw [if_neg (by simp [he])] at h
      obtain rfl : l = x := Option.some.inj h
      exact Bool.of_not_eq_true he

/-- The collapse loop never keeps two adjacent whitespace-only lines. -/
theorem collapse_empties_chain (prev : Bool) (ls : List Line) :
    List.Chain' (fun a b => (trim a).isEmpty = false ∨ (trim b).isEmpty = false)
      (collapse_empties prev ls) := by
  induction ls generalizing prev with
  | nil => simp [collapse_empties]
  | cons l t ih =>
    unfold collapse_empties
    by_cases he : (trim l).isEmpty
    · by_cases hp : prev
      · rw [if_pos (by simp [he, hp])]
        exact ih prev
      · rw [if_neg (by simp [hp])]
        rw [List.chain'_cons']
        refine ⟨?_, ih _⟩
        intro y hy
        right
        exact collapse_empties_head t y (he ▸ hy)
    · rw [if_neg (by simp [he])]
      rw [List.chain'_cons']
      exact ⟨fun y _ => Or.inl (Bool.of_not_eq_true he), ih _⟩

/-- The last element of `dropLast` and the last element of the whole list are
adjacent, so a `Chain'` relates them. -/
theorem chain'_getLast_dropLast {P : Line → Line → Prop} :
    ∀ (c : List Line) (x y : Line), List.Chain' P c → c.getLast? = some y →
      c.dropLast.getLast? = some x → P x y
  | [], x, y, _, hy, _ => by simp at hy
  | [a], x, y, _, _, hx => by simp at hx
  | a :: b :: t, x, y, hc, hy, hx => by
    match t with
    | [] =>
      obtain rfl : y = b := by simpa using hy.symm
      obtain rfl : x = a := by simpa using hx.symm
      exact (List.chain'_cons.mp hc).1
    | c' :: t'' =>
      have hx' : (b :: c' :: t'').dropLast.getLast? = some x := by
        rw [List.dropLast_cons₂, List.dropLast_cons₂] at hx
        rw [List.dropLast_cons₂]
        rw [List.getLast?_cons_cons] at hx
        exact hx
      exact chain'_getLast_dropLast (b :: c' :: t'') x y (List.chain'_cons.mp hc).2
        (by simpa using hy) hx'

/-- The Document Writer as the spec words it (§4.4): per section, nothing when
its line list is empty, otherwise every line followed by one line terminator
and then one additional blank separator line, sections in `Doc` order.  Stated
independently of the implementation to compare the two. -/
def write_spec (d : Doc) : List Char :=
  (d.sections.map (fun s =>
    if s.lines.isEmpty then []
    else (s.lines.map (fun l => l ++ ['\n'])).flatten ++ ['\n'])).flatten

theorem foldl_write_lines (ls : List Line) (acc : List Char) :
    ls.foldl (fun acc l => acc ++ l ++ ['\n']) acc =
      acc ++ (ls.map (fun l => l ++ ['\n'])).flatten := by
  induction ls generalizing acc with
  | nil => simp
  | cons l t ih =>
    simp only [List.foldl_cons, List.map_cons, List.flatten_cons, ih]
    simp [List.append_assoc]

theorem write_section_eq (acc : List Char) (s : Section) :
    write_section acc s = acc ++
      (if s.lines.isEmpty then []
       else (s.lines.map (fun l => l ++ ['\n'])).flatten ++ ['\n']) := by
  unfold write_section
  by_cases he : s.lines.isEmpty
  · rw [if_pos he, if_pos he]
    obtain hnil : s.lines = [] := by simpa using he
    simp [hnil]
  · rw [if_neg he, if_neg he]
    rw [foldl_write_lines]
    simp [List.append_assoc]

theorem foldl_write_sections (ss : List Section) (acc : List Char) :
    ss.foldl write_section acc = acc ++
      (ss.map (fun s =>
        if s.lines.isEmpty then []
        else (s.lines.map (fun l => l ++ ['\n'])).flatten ++ ['\n'])).flatten := by
  induction ss generalizing acc with
  | nil => simp
  | cons s t ih =>
    simp only [List.foldl_cons, List.map_cons, List.flatten_cons, ih, write_section_eq]
    simp [List.append_assoc]

/-! ### The claims -/

/-- Claim C1, counterexample: stripping the Comment line `//t   Hello`
(marker followed by three spaces) does not yield `Hello`; the built section
holds `  Hello`, which differs from `Hello`. -/
theorem parse_comment_hello_counterexample :
    parse_comment ["//t   Hello".toList] =
      .ok (.Comment ["  Hello".toList], []) ∧
    "  Hello".toList ≠ "Hello".toList :=
  ⟨rfl, by decide⟩

/-- Claim C1, amended: stripping the Comment line `//t   Hello` removes the
marker and exactly one following space and nothing else, yielding `  Hello`
(two leading spaces preserved). -/
theorem parse_comment_hello_amended :
    parse_comment ["//t   Hello".toList] =
      .ok (.Comment ["  Hello".toList], []) :=
  rfl

/-- Claim C2: for every non-empty input, the section builder partitions the
lines into the raw runs — every line lands in exactly one run, concatenating
the runs in order reconstructs the input line-for-line, no run is empty — and
the built sections are exactly those runs' sections in order. -/
theorem compile_partition (lines : List Line) (h : lines ≠ []) :
    (raw_runs lines).flatten = lines ∧
    (∀ r ∈ raw_runs lines, r ≠ []) ∧
    build_sections lines = .ok ((raw_runs lines).map run_to_section) :=
  ⟨raw_runs_join lines, raw_runs_ne_nil lines, build_sections_eq lines⟩

theorem compile_partition_witness :
    (raw_runs ["let x = 1;".toList]).flatten = ["let x = 1;".toList] ∧
    (∀ r ∈ raw_runs ["let x = 1;".toList], r ≠ []) ∧
    build_sections ["let x = 1;".toList] =
      .ok ((raw_runs ["let x = 1;".toList]).map run_to_section) :=
  compile_partition ["let x = 1;".toList] (by decide)

/-- Claim C3: in every `Doc` produced by `compile`, no two adjacent sections
share the same variant. -/
theorem compile_adjacent_tags_distinct (lines : List Line) (d : Doc)
    (h : compile lines = .ok d) :
    List.Chain' (fun s1 s2 => s1.tag ≠ s2.tag) d.sections := by
  rw [compile_eq] at h
  obtain rfl : d = ⟨((raw_runs lines).map run_to_section).map format_section⟩ :=
    (Except.ok.inj h).symm
  show List.Chain' _ (((raw_runs lines).map run_to_section).map format_section)
  rw [List.map_map, List.chain'_map]
  refine List.Chain'.imp ?_ (raw_runs_chain lines).1
  intro r1 r2 hne
  simpa [format_section_tag, run_to_section_tag] using hne

theorem compile_adjacent_tags_distinct_witness :
    List.Chain' (fun s1 s2 => s1.tag ≠ s2.tag)
      (Doc.mk (((raw_runs ["/// a".toList]).map run_to_section).map
        format_section)).sections :=
  compile_adjacent_tags_distinct ["/// a".toList]
    ⟨((raw_runs ["/// a".toList]).map run_to_section).map format_section⟩
    (compile_eq ["/// a".toList])

/-- Claim C4: formatting the Code line buffer
`["", "", "foo", "", "", "", "bar", ""]` yields exactly the five lines
fence-open, `foo`, one empty line, `bar`, fence-close. -/
theorem format_code_blank_collapse_example :
    format_code ["".toList, "".toList, "foo".toList, "".toList, "".toList,
      "".toList, "bar".toList, "".toList] =
      [fenceOpen, "foo".toList, "".toList, "bar".toList, fenceClose] := by
  decide

/-- Claim C5, counterexample: the last-line drop of `format_code` tests
`String::is_empty`, not whitespace-only emptiness: after `foo` a single-space
line is whitespace-only (per the step-2 notion) yet survives, so a fenced
section can end with a whitespace-only line right before the fence-close. -/
theorem format_code_whitespace_last_counterexample :
    format_code ["foo".toList, " ".toList] =
      [fenceOpen, "foo".toList, " ".toList, fenceClose] ∧
    (trim " ".toList).isEmpty = true ∧ " ".toList ≠ [] := by
  refine ⟨by decide, by decide, by decide⟩

/-- Claim C5, amended: the last-line drop applies when the last remaining
line is the empty string (length zero).  A fenced section therefore never ends
with an empty-string line before the fence-close line (a whitespace-only but
non-empty line may remain). -/
theorem format_code_no_trailing_empty_line (lines : List Line) :
    format_code lines = [] ∨
    ∃ core, core ≠ [] ∧ format_code lines = fenceOpen :: (core ++ [fenceClose]) ∧
      ∀ x, core.getLast? = some x → x ≠ [] := by
  simp only [format_code]
  set c := collapse_empties false (lines.dropWhile (fun l => (trim l).isEmpty)) with hcdef
  by_cases hlast : c.getLast? = some []
  · rw [if_pos hlast]
    by_cases hemp : c.dropLast.isEmpty
    · rw [if_pos hemp]
      left
      simpa using hemp
    · rw [if_neg hemp]
      right
      refine ⟨c.dropLast, by simpa using hemp, rfl, ?_⟩
      intro x hx
      have hrel := chain'_getLast_dropLast c x []
        (hcdef ▸ collapse_empties_chain false (lines.dropWhile (fun l => (trim l).isEmpty)))
        hlast hx
      rcases hrel with hne | habs
      · intro hcontra
        rw [hcontra] at hne
        exact Bool.noConfusion hne
      · exact absurd habs (by decide)
  · rw [if_neg hlast]
    by_cases hemp : c.isEmpty
    · rw [if_pos hemp]
      left
      simpa using hemp
    · rw [if_neg hemp]
      right
      refine ⟨c, by simpa using hemp, rfl, ?_⟩
      intro x hx hcontra
      rw [hcontra] at hx
      exact hlast hx

theorem format_code_no_trailing_empty_line_witness :
    format_code ["foo".toList] = [] ∨
    ∃ core, core ≠ [] ∧
      format_code ["foo".toList] = fenceOpen :: (core ++ [fenceClose]) ∧
      ∀ x, core.getLast? = some x → x ≠ [] :=
  format_code_no_trailing_empty_line ["foo".toList]

/-- Claim C6: on a filesystem failure while opening, `compile` returns the
failure as an error value; but on a failure while reading (`read_to_string` on
an already-open file, e.g. invalid UTF-8) the `unwrap` panics instead of
returning the error, contradicting the documented error propagation. -/
theorem compile_file_read_failure_panics :
    compile_file (.err "no such file") (.ok []) = .err "no such file" ∧
    compile_file (.ok ()) (.err "stream did not contain valid UTF-8") =
      .panicked "stream did not contain valid UTF-8" ∧
    (∀ e, compile_file (.ok ()) (.err "stream did not contain valid UTF-8") ≠
      .err e) ∧
    (∀ d, compile_file (.ok ()) (.err "stream did not contain valid UTF-8") ≠
      .ok d) :=
  ⟨rfl, rfl, fun _ h => CompileOutcome.noConfusion h,
    fun _ h => CompileOutcome.noConfusion h⟩

/-- Claim C7: the defensive empty-run error branches are unreachable — the
section builder, and with it the pure part of `compile`, always succeeds. -/
theorem compile_never_fails (lines : List Line) :
    (∃ ss, build_sections lines = Except.ok ss) ∧
    (∃ d, compile lines = Except.ok d) :=
  ⟨⟨_, build_sections_eq lines⟩, ⟨_, compile_eq lines⟩⟩

/-- Claim C8: the writer emits, section by section in `Doc` order, nothing for
an empty line list and otherwise every line followed by one line terminator
plus one blank separator line — the implementation equals the spec-side
description `write_spec`. -/
theorem write_to_file_eq_write_spec (d : Doc) :
    d.write_to_file = write_spec d := by
  unfold Doc.write_to_file write_spec
  rw [foldl_write_sections]
  simp

/-- Claim C9: the formatting pass preserves the number, order and variants of
the sections and leaves `Comment` and `DocComment` sections (their line
buffers included) unchanged. -/
theorem format_pass_frame (ss : List Section) (ls : List Line) :
    (ss.map format_section).map Section.tag = ss.map Section.tag ∧
    format_section (.Comment ls) = .Comment ls ∧
    format_section (.DocComment ls) = .DocComment ls := by
  refine ⟨?_, rfl, rfl⟩
  rw [List.map_map]
  exact List.map_congr_left (fun s _ => format_section_tag s)

/-- Claim C10: an empty input text has zero lines, `compile` succeeds on it
with a `Doc` of zero sections, and writing that `Doc` produces empty output. -/
theorem compile_empty_input :
    rust_lines "".toList = [] ∧
    compile (rust_lines "".toList) = .ok ⟨[]⟩ ∧
    Doc.write_to_file ⟨[]⟩ = [] := by
  refine ⟨rfl, ?_, rfl⟩
  have h := compile_eq (rust_lines "".toList)
  have hrr : raw_runs [] = [] := by
    unfold raw_runs
    rfl
  rw [show rust_lines "".toList = [] from rfl] at h ⊢
  rw [hrr] at h
  simpa using h

end RustHandbook
